import Mathlib

/-!
# Verification of the cheerio-select query engine

Shallow embedding of the selector-resolution engine of this repository
(`src/index.ts`, `src/cache.ts`).  External collaborators (the `css-what`
parser output, the `css-select` compiler, and `domutils` tree utilities)
are modelled from their documented contracts; the two repository modules
that are imported but absent from the source tree (`helpers.ts` and
`positionals.ts`) are modelled from the specification, as marked on each
definition.

Modelling conventions:
* A DOM node is a tree value carrying a numeric id; JavaScript reference
  identity is modelled by structural equality (ids keep distinct nodes
  distinct in all concrete documents used below).
* The ambient document (reachable in JavaScript through parent pointers)
  is passed explicitly as a `doc : DomNode` argument.
* JavaScript's `Infinity` limits are modelled by `Option Nat`
  (`Option.none` = unbounded).
* Fallible code paths (runtime `TypeError`s such as reading a property of
  `undefined`) return `Option`, with `Option.none` as the crash.
* The mutually recursive positional resolver threads an explicit `fuel`
  argument modelling the call stack; fuel is decremented on every call
  edge, and all theorems either quantify over fuel or supply a fuel that
  is ample for the concrete input.
-/

namespace CS

/-! ## Selector AST (model of the `css-what` parse result) -/

/-- Attribute match action (the subset of `css-what` actions the engine's
fast paths and our concrete selectors exercise). -/
inductive SAction where
  | equals
  | element
  | has
deriving DecidableEq, Repr

/-- Names of the positional filters resolved by this engine
(`positionals.ts` `Filter`, plus `not`). -/
inductive PFilter where
  | first
  | last
  | lt
  | gt
  | nth
  | eq
  | even
  | odd
  | not
deriving DecidableEq, Repr

mutual
/-- A `css-what` selector token: a tag test, the universal selector, an
attribute test, the `:scope` pseudo, a positional pseudo, or a traversal
combinator. -/
inductive Selector where
  | tag (name : String)
  | universal
  | attribute (name : String) (action : SAction) (value : String)
  | pseudoScope
  | pseudoFilter (name : PFilter) (data : SelData)
  | descendant
  | child
  | sibling
  | adjacent

/-- Payload of a positional pseudo: `num n` models a string payload whose
`parseInt` result is `n` (`Option.none` = `NaN`), `sels` a nested selector
list, `null` a missing payload. -/
inductive SelData where
  | num (n : Option Int)
  | sels (s : List (List Selector))
  | null
end

abbrev SelSeq := List Selector
abbrev SelGroup := List SelSeq

/-! ## DOM node model -/

/-- A DOM node: an element (with id, tag name, attributes and children) or
a non-element node (text, comment, ...).  The id models JavaScript
reference identity. -/
inductive DomNode where
  | elem (id : Nat) (name : String) (attribs : List (String × String)) (children : List DomNode)
  | text (id : Nat)

mutual
/-- Structural equality test on nodes (models reference identity). -/
def DomNode.beq : DomNode → DomNode → Bool
  | .elem i n a c, .elem i' n' a' c' => i == i' && n == n' && a == a' && DomNode.beqL c c'
  | .text i, .text j => i == j
  | _, _ => false

def DomNode.beqL : List DomNode → List DomNode → Bool
  | [], [] => true
  | x :: xs, y :: ys => DomNode.beq x y && DomNode.beqL xs ys
  | _, _ => false
end

mutual
/-- The equality test decides structural equality. -/
def DomNode.beq_iff : ∀ a b : DomNode, DomNode.beq a b = true ↔ a = b
  | .elem i n a c, .elem i' n' a' c' => by
      simp only [DomNode.beq, Bool.and_eq_true, beq_iff_eq, DomNode.beqL_iff c c',
        DomNode.elem.injEq]
      tauto
  | .text i, .text j => by simp [DomNode.beq]
  | .elem _ _ _ _, .text _ => by simp [DomNode.beq]
  | .text _, .elem _ _ _ _ => by simp [DomNode.beq]

def DomNode.beqL_iff : ∀ xs ys : List DomNode, DomNode.beqL xs ys = true ↔ xs = ys
  | [], [] => by simp [DomNode.beqL]
  | x :: xs, y :: ys => by
      simp only [DomNode.beqL, Bool.and_eq_true, DomNode.beq_iff x y,
        DomNode.beqL_iff xs ys, List.cons.injEq]
  | [], _ :: _ => by simp [DomNode.beqL]
  | _ :: _, [] => by simp [DomNode.beqL]
end

instance : DecidableEq DomNode := fun a b => decidable_of_iff _ (DomNode.beq_iff a b)

/-- `domutils.isTag`. -/
def isTag : DomNode → Bool
  | .elem _ _ _ _ => true
  | .text _ => false

/-- Tag name of a node (empty for non-elements). -/
def nodeName : DomNode → String
  | .elem _ n _ _ => n
  | .text _ => ""

/-- Attribute lookup (`node.attribs[name]`, `Option.none` = `undefined`). -/
def getAttr (n : DomNode) (name : String) : Option String :=
  match n with
  | .elem _ _ attribs _ => (attribs.find? (fun p => p.1 = name)).map Prod.snd
  | .text _ => Option.none

/-- `domutils.getChildren`. -/
def getChildren : DomNode → List DomNode
  | .elem _ _ _ children => children
  | .text _ => []

mutual
/-- Pre-order (document-order) traversal of a subtree. -/
def preorder : DomNode → List DomNode
  | .elem i n a children => .elem i n a children :: preorderL children
  | .text i => [.text i]

/-- Pre-order traversal of a forest, left to right. -/
def preorderL : List DomNode → List DomNode
  | [] => []
  | c :: cs => preorder c ++ preorderL cs
end

mutual
/-- Chain of proper ancestors of `e` inside the subtree `n`, nearest
first, ending with `n`; `Option.none` when `e` does not occur in `n`.
Models walking JavaScript parent pointers. -/
def pathTo (e : DomNode) : DomNode → Option (List DomNode)
  | .elem i nm a children =>
      if DomNode.elem i nm a children = e then some []
      else (pathToL e children).map (· ++ [DomNode.elem i nm a children])
  | .text i => if DomNode.text i = e then some [] else Option.none

/-- `pathTo` over a forest: first child subtree containing `e` wins. -/
def pathToL (e : DomNode) : List DomNode → Option (List DomNode)
  | [] => Option.none
  | c :: cs =>
      match pathTo e c with
      | some p => some p
      | Option.none => pathToL e cs
end

/-- Proper ancestors of `e` in the document, nearest first (empty for the
root or for detached nodes). -/
def ancestors (doc e : DomNode) : List DomNode :=
  (pathTo e doc).getD []

/-- Document-order position of a node: its index in the pre-order
traversal of the document (length of the traversal when absent). -/
def docPos (doc e : DomNode) : Nat :=
  (preorder doc).indexOf e

/-- Document-order comparison used by the `uniqueSort` model. -/
def docLE (doc : DomNode) (a b : DomNode) : Prop :=
  docPos doc a ≤ docPos doc b

instance (doc : DomNode) : DecidableRel (docLE doc) :=
  fun a b => inferInstanceAs (Decidable (docPos doc a ≤ docPos doc b))

instance (doc : DomNode) : IsTotal DomNode (docLE doc) :=
  ⟨fun _ _ => Nat.le_total _ _⟩

instance (doc : DomNode) : IsTrans DomNode (docLE doc) :=
  ⟨fun _ _ _ => Nat.le_trans⟩

/-- Keep only the last occurrence of each node (the duplicate-removal pass
of `domutils.uniqueSort`, which drops a node when it occurs again later). -/
def dedupKeepLast : List DomNode → List DomNode
  | [] => []
  | x :: xs => if xs.contains x then dedupKeepLast xs else x :: dedupKeepLast xs

/-- Model of `domutils.uniqueSort`: deduplicate by node identity, then
sort into document (pre-order) order. -/
def uniqueSort (doc : DomNode) (nodes : List DomNode) : List DomNode :=
  List.insertionSort (docLE doc) (dedupKeepLast nodes)

/-- `list.slice(0, limit)` with `Option.none` = `Infinity`. -/
def takeLim (lim : Option Nat) (l : List DomNode) : List DomNode :=
  match lim with
  | Option.none => l
  | some n => l.take n

/-- JavaScript `Array.prototype.slice(start)` for an integer `start`
(negative values count from the end). -/
def jsSliceFrom (start : Int) (l : List DomNode) : List DomNode :=
  if start < 0 then l.drop ((l.length + start).toNat) else l.drop start.toNat

/-- Insert nodes one by one into an insertion-ordered set (JS `Set.add`):
already-present nodes are skipped. -/
def insertAll (s : List DomNode) (xs : List DomNode) : List DomNode :=
  xs.foldl (fun s x => if s.contains x then s else s ++ [x]) s

/-- All siblings after `e` (models `domutils` next-sibling walking used by
`css-select.appendNextSiblings`). -/
def nextSiblings (doc e : DomNode) : List DomNode :=
  match ancestors doc e with
  | [] => []
  | p :: _ => ((getChildren p).dropWhile (fun c => decide (c ≠ e))).drop 1

/-- `css-select.appendNextSiblings`: the nodes followed by all their
subsequent siblings. -/
def appendNextSiblings (doc : DomNode) (elems : List DomNode) : List DomNode :=
  elems ++ elems.flatMap (nextSiblings doc)

/-- Does some strict ancestor of `e` occur in `nodes`? -/
def hasAncestorIn (doc : DomNode) (nodes : List DomNode) (e : DomNode) : Bool :=
  (ancestors doc e).any (fun a => nodes.contains a)

/-- Model of `domutils.removeSubsets`: drop later duplicates and nodes one
of whose strict ancestors is also in the list.  (The source mutates the
array while scanning from the end; by transitivity of the ancestor
relation this is equivalent to filtering against the original list.) -/
def removeSubsets (doc : DomNode) (nodes : List DomNode) : List DomNode :=
  (nodes.eraseDups).filter (fun e => !hasAncestorIn doc nodes e)

/-- A single node or a node list, as accepted for roots and contexts
(`AnyNode | AnyNode[]`). -/
inductive RootArg where
  | one (n : DomNode)
  | many (ns : List DomNode)

/-- `Array.isArray`. -/
def RootArg.isMany : RootArg → Bool
  | .one _ => false
  | .many _ => true

def RootArg.toList : RootArg → List DomNode
  | .one n => [n]
  | .many ns => ns

/-- Model of `css-select.prepareContext`: optionally append following
siblings; then a list is passed through `removeSubsets` while a single
node contributes its children. -/
def prepareContext (doc : DomNode) (root : RootArg) (shouldTestNextSiblings : Bool) :
    List DomNode :=
  if shouldTestNextSiblings then
    removeSubsets doc (appendNextSiblings doc root.toList)
  else
    match root with
    | .one n => getChildren n
    | .many ns => removeSubsets doc ns

/-! ## Options (`Options` of `index.ts` restricted to the keys the engine
reads; `rootFunc = Option.none` models `boolbase.trueFunc`). -/

structure Options where
  xmlMode : Bool := false
  relativeSelector : Option Bool := Option.none
  pseudos : Option (List String) := Option.none
  adapter : Bool := false
  root : Option DomNode := Option.none
  rootFunc : Option (DomNode → Bool) := Option.none
  context : Option (List DomNode) := Option.none

/-! ## Selector classification (spec-modelled collaborators) -/

/-- `css-what.isTraversal`. -/
def isTraversal : Selector → Bool
  | .descendant => true
  | .child => true
  | .sibling => true
  | .adjacent => true
  | _ => false

mutual
/-- Modelled from the spec: `positionals.ts` `isFilter` is missing from
the source tree.  Per spec §3/§4.1 a token is a positional filter when it
is a positional pseudo (`first|last|lt|gt|nth|eq|even|odd`), or a `not`
pseudo whose nested selector list contains a positional filter at any
depth. -/
def isFilter : Selector → Bool
  | .pseudoFilter f d =>
      match f with
      | .not =>
          match d with
          | .sels ss => groupHasFilter ss
          | _ => false
      | _ => true
  | _ => false

def seqHasFilter : List Selector → Bool
  | [] => false
  | s :: r => isFilter s || seqHasFilter r

def groupHasFilter : List (List Selector) → Bool
  | [] => false
  | s :: r => seqHasFilter s || groupHasFilter r
end

/-- Modelled from the spec: `helpers.ts` `groupSelectors` is missing from
the source tree.  Per spec §4.1 it partitions the alternatives into
(plain, filtered), preserving relative order within each part. -/
def groupSelectors (sels : SelGroup) : SelGroup × SelGroup :=
  (sels.filter (fun s => !seqHasFilter s), sels.filter (fun s => seqHasFilter s))

/-- Modelled from the spec: `helpers.ts` `getDocumentRoot` is missing from
the source tree.  It walks parent pointers from the given node up to the
document root (here the ambient `doc`); on a missing node (empty element
list) the property read crashes, modelled by `Option.none`. -/
def getDocumentRoot (doc : DomNode) : Option DomNode → Option DomNode
  | some _ => some doc
  | Option.none => Option.none

/-- Modelled from the spec: `positionals.ts` `getLimit` is missing from
the source tree.  Per spec §4.4 step 3, `first` needs a single candidate
and `lt n` needs the first `n` candidates, while the remaining filters
need the full candidate set (`Option.none` = `Infinity`); a non-numeric
payload for `lt` yields `0` and short-circuits. -/
def getLimit (f : PFilter) (data : SelData) (_partLimit : Option Nat) : Option Nat :=
  let num : Option Int :=
    match data with
    | .num n => n
    | _ => Option.none
  match f with
  | .first => some 1
  | .lt =>
      match num with
      | some n => if 0 ≤ n then some n.toNat else Option.none
      | Option.none => some 0
  | _ => Option.none

/-! ## Compiled-predicate matcher (model of the external `css-select`
compiler, restricted to the token kinds in our AST).

A selector sequence is matched right to left: the rightmost simple
selector must hold at the node itself, combinators move to an ancestor or
a preceding sibling, and when all tokens are consumed the node where the
chain ends must satisfy `opts.rootFunc` (`css-select` terminates the
compiled chain with `rootFunc ?? trueFunc`).  Ancestor and sibling access
(JavaScript parent pointers) is recovered from the ambient document. -/

/-- ASCII lowercase of a character (JavaScript `toLowerCase` restricted to
the ASCII range that tag names use). -/
def lowerChar (c : Char) : Char :=
  if 'A' ≤ c ∧ c ≤ 'Z' then Char.ofNat (c.toNat + 32) else c

/-- ASCII lowercase of a string. -/
def lowerStr (s : String) : String :=
  String.mk (s.data.map lowerChar)

/-- Split a character list at whitespace (adjacent separators produce
empty groups; membership of a nonempty token agrees with the
`split(/\s+/)` of the source). -/
def splitWsAux : List Char → List (List Char)
  | [] => [[]]
  | c :: cs =>
      let r := splitWsAux cs
      if c.isWhitespace then [] :: r
      else
        match r with
        | [] => [[c]]
        | g :: gs => (c :: g) :: gs

/-- Whitespace split used for class-token membership. -/
def splitClasses (s : String) : List String :=
  (splitWsAux s.data).map String.mk

/-- Tag-name test; in `xmlMode` matching is case-sensitive, otherwise both
sides are lowercased (as `css-select` does for HTML documents). -/
def matchTag (opts : Options) (nm : String) (e : DomNode) : Bool :=
  isTag e && (if opts.xmlMode then nodeName e = nm else lowerStr (nodeName e) = lowerStr nm)

/-- Attribute test (`equals`, whitespace-token `element`, `has`); the
case-sensitive behaviour of the default (non-quirks) mode. -/
def matchAttr (name : String) (action : SAction) (value : String) (e : DomNode) : Bool :=
  match action with
  | .equals => getAttr e name == some value
  | .element =>
      match getAttr e name with
      | some v => (splitClasses v).contains value
      | Option.none => false
  | .has => (getAttr e name).isSome

/-- Element siblings strictly before `e` (given `e`'s ancestor chain),
in document order. -/
def prevElemSiblings (anc : List DomNode) (e : DomNode) : List DomNode :=
  match anc with
  | [] => []
  | p :: _ => ((getChildren p).takeWhile (fun c => decide (c ≠ e))).filter isTag

/-- Try a test on every suffix of an ancestor chain (for the descendant
combinator). -/
def anyAncestor (f : List DomNode → DomNode → Bool) : List DomNode → Bool
  | [] => false
  | a :: rest => f rest a || anyAncestor f rest

/-- Fueled right-to-left matcher: `tokens` is the reversed selector
sequence, `anc` the proper-ancestor chain of `e`.  The fuel models the
recursion stack; `matchSeq` supplies fuel ample for any input (depth is
bounded by the token count including nested `not` payloads). -/
def matchRevF (doc : DomNode) (opts : Options) :
    Nat → List Selector → List DomNode → DomNode → Bool
  | 0, _, _, _ => false
  | m + 1, tokens, anc, e =>
    match tokens with
    | [] =>
        match opts.rootFunc with
        | some f => f e
        | Option.none => true
    | .tag nm :: rest => matchTag opts nm e && matchRevF doc opts m rest anc e
    | .universal :: rest => isTag e && matchRevF doc opts m rest anc e
    | .attribute n a v :: rest =>
        isTag e && matchAttr n a v e && matchRevF doc opts m rest anc e
    | .pseudoScope :: rest =>
        (opts.context.getD []).contains e && matchRevF doc opts m rest anc e
    | .pseudoFilter f d :: rest =>
        match f, d with
        | .not, .sels ss =>
            (!ss.any (fun s => matchRevF doc opts m s.reverse anc e)) &&
              matchRevF doc opts m rest anc e
        | _, _ => false
    | .descendant :: rest =>
        anyAncestor (fun anc' a => matchRevF doc opts m rest anc' a) anc
    | .child :: rest =>
        match anc with
        | [] => false
        | p :: anc' => matchRevF doc opts m rest anc' p
    | .sibling :: rest =>
        (prevElemSiblings anc e).any (fun s => matchRevF doc opts m rest anc s)
    | .adjacent :: rest =>
        match (prevElemSiblings anc e).getLast? with
        | some s => matchRevF doc opts m rest anc s
        | Option.none => false

mutual
/-- Size of a selector token, counting nested `not` payloads (used to
bound the matcher's recursion depth). -/
def Selector.fsize : Selector → Nat
  | .pseudoFilter _ d => 1 + SelData.fsize d
  | _ => 1

def SelData.fsize : SelData → Nat
  | .sels ss => 1 + fsizeGroup ss
  | _ => 1

def fsizeSeq : List Selector → Nat
  | [] => 1
  | s :: r => Selector.fsize s + fsizeSeq r

def fsizeGroup : List (List Selector) → Nat
  | [] => 1
  | s :: r => fsizeSeq s + fsizeGroup r
end

/-- Match a selector sequence at a node of the document. -/
def matchSeq (doc : DomNode) (opts : Options) (s : SelSeq) (e : DomNode) : Bool :=
  matchRevF doc opts (fsizeSeq s + 1) s.reverse (ancestors doc e) e

/-- A compiled query: the boolean predicate plus the
`shouldTestNextSiblings` metadata (set when an alternative starts with a
sibling combinator). -/
structure CompiledQuery where
  pred : DomNode → Bool
  shouldTestNextSiblings : Bool

/-- Model of `css-select._compileToken`: disjunction of the alternatives'
sequence matchers.  (The `context` argument of the external compiler only
influences relative-selector absolutization, which the engine disables or
which is observationally absorbed by the traversal root; the compiled
predicate is therefore modelled as root-independent.) -/
def compileToken (doc : DomNode) (sel : SelGroup) (opts : Options) : CompiledQuery :=
  { pred := fun e => sel.any (fun seq => matchSeq doc opts seq e)
    shouldTestNextSiblings := sel.any (fun seq =>
      match seq.head? with
      | some .sibling => true
      | some .adjacent => true
      | _ => false) }

/-! ## `index.ts`: searching -/

/-- `find` (`index.ts` 436-453): prepare the context and collect, in
pre-order, the element nodes satisfying the query, up to `limit`.
(`domutils.find` stops as soon as `limit` matches are found; collecting
all matches and truncating yields the same list.) -/
def find (doc : DomNode) (root : RootArg) (query : CompiledQuery) (limit : Option Nat) :
    List DomNode :=
  takeLim limit
    (((prepareContext doc root query.shouldTestNextSiblings).flatMap preorder).filter
      (fun n => isTag n && query.pred n))

/-- `filterElements` (`index.ts` 455-468).  (The `boolbase.trueFunc`
shortcut is omitted: filtering with the always-true predicate returns the
same list.) -/
def filterElements (doc : DomNode) (elements : RootArg) (sel : SelGroup) (opts : Options) :
    List DomNode :=
  let els := elements.toList.filter isTag
  if els.isEmpty then els
  else
    let query := compileToken doc sel opts
    els.filter query.pred

/-! ## `cache.ts` -/

/-- `isSimpleIdSelector` (`cache.ts` 69-78). -/
def isSimpleIdSelector : SelGroup → Option String
  | [[Selector.attribute n a v]] =>
      if n = "id" ∧ a = SAction.equals then some v else Option.none
  | _ => Option.none

/-- `isSimpleClassSelector` (`cache.ts` 80-89). -/
def isSimpleClassSelector : SelGroup → Option String
  | [[Selector.attribute n a v]] =>
      if n = "class" ∧ a = SAction.element then some v else Option.none
  | _ => Option.none

/-- `isSimpleTagSelector` (`cache.ts` 91-95). -/
def isSimpleTagSelector : SelGroup → Option String
  | [[Selector.tag n]] => some n
  | _ => Option.none

/-! ## Fast paths (`index.ts` 470-564)

Each fast path runs an explicit-stack pre-order walk from the root,
pushing children in reverse so nodes are visited in document order, and
stops once `limit` matches are collected; this equals truncating the
filtered pre-order traversal. -/

/-- `fastFindById` (`index.ts` 473-497). -/
def fastFindById (root : DomNode) (id : String) (limit : Option Nat) : List DomNode :=
  takeLim limit ((preorder root).filter (fun n => isTag n && getAttr n "id" == some id))

/-- `fastFindByClass` (`index.ts` 502-533); an absent or empty `class`
attribute is falsy and never matches. -/
def fastFindByClass (root : DomNode) (className : String) (limit : Option Nat) :
    List DomNode :=
  takeLim limit ((preorder root).filter (fun n =>
    isTag n &&
      match getAttr n "class" with
      | some classAttr => classAttr ≠ "" && (splitClasses classAttr).contains className
      | Option.none => false))

/-- `fastFindByTag` (`index.ts` 538-564): both the node name and the
selector's tag name are lowercased, regardless of `xmlMode`. -/
def fastFindByTag (root : DomNode) (tagName : String) (limit : Option Nat) : List DomNode :=
  takeLim limit ((preorder root).filter (fun n =>
    isTag n && lowerStr (nodeName n) == lowerStr tagName))

/-- The fast-path dispatch of `findElements` (`index.ts` 380-396),
applicable only to single-node roots. -/
def fastPath (root : DomNode) (sel : SelGroup) (limit : Option Nat) :
    Option (List DomNode) :=
  match isSimpleIdSelector sel with
  | some id => some (fastFindById root id limit)
  | Option.none =>
    match isSimpleClassSelector sel with
    | some cls => some (fastFindByClass root cls limit)
    | Option.none =>
      match isSimpleTagSelector sel with
      | some t => some (fastFindByTag root t limit)
      | Option.none => Option.none

/-- The general compiled-predicate path of `findElements`
(`index.ts` 398-414 together with `find`): compile the selector group and
search.  (The compiled-query cache is modelled separately in
`findElementsC`; since compilation is deterministic the cache never
changes the result, so the pipeline uses this pure form.) -/
def findElementsGeneral (doc : DomNode) (root : RootArg) (sel : SelGroup) (opts : Options)
    (limit : Option Nat) : List DomNode :=
  find doc root (compileToken doc sel opts) limit

/-- `findElements` (`index.ts` 374-415): fast path for simple selectors on
a single-node root, otherwise the general compiled path. -/
def findElements (doc : DomNode) (root : RootArg) (sel : SelGroup) (opts : Options)
    (limit : Option Nat) : List DomNode :=
  match root with
  | .one r =>
      match fastPath r sel limit with
      | some res => res
      | Option.none => findElementsGeneral doc root sel opts limit
  | .many _ => findElementsGeneral doc root sel opts limit

/-- `getCacheKey` (`index.ts` 420-434). -/
def getCacheKey (opts : Options) : String :=
  let keyParts : List String :=
    (if opts.xmlMode then ["xml"] else []) ++
    (match opts.relativeSelector with
     | some b => ["rel:" ++ toString b]
     | Option.none => []) ++
    (match opts.pseudos with
     | some names => ["pseudo:" ++ String.intercalate "," names]
     | Option.none => []) ++
    (if opts.adapter then ["adapter"] else [])
  let key := String.intercalate "|" keyParts
  if key = "" then "default" else key

/-- Process-wide cache state (`cache.ts`): the compiled-selector cache is
keyed by the selector-group object's identity (modelled as `Nat`) and the
option fingerprint; the bounded match-result cache is the only store
`clearCaches` empties. -/
structure CacheState where
  compiled : List (Nat × String × CompiledQuery) := []
  matchCache : List (String × Bool) := []

/-- `clearCaches` (`cache.ts` 62-64): empties only the match-result
cache. -/
def clearCaches (σ : CacheState) : CacheState :=
  { σ with matchCache := [] }

/-- Lookup in the two-level compiled-selector cache. -/
def cacheLookup (σ : CacheState) (selId : Nat) (key : String) : Option CompiledQuery :=
  (σ.compiled.find? (fun e => e.1 == selId && e.2.1 == key)).map (fun e => e.2.2)

/-- `findElements` with the compiled-selector cache made explicit
(`index.ts` 374-415): `selId` is the identity of the selector-group
object (the `WeakMap` key).  On a miss the freshly compiled query is
stored; on a hit the stored query is used unchanged. -/
def findElementsC (σ : CacheState) (doc : DomNode) (selId : Nat) (sel : SelGroup)
    (root : RootArg) (opts : Options) (limit : Option Nat) : List DomNode × CacheState :=
  match root with
  | .one r =>
      match fastPath r sel limit with
      | some res => (res, σ)
      | Option.none => findElementsCGeneral σ doc selId sel root opts limit
  | .many _ => findElementsCGeneral σ doc selId sel root opts limit
where
  findElementsCGeneral (σ : CacheState) (doc : DomNode) (selId : Nat) (sel : SelGroup)
      (root : RootArg) (opts : Options) (limit : Option Nat) : List DomNode × CacheState :=
    let key := getCacheKey opts
    match cacheLookup σ selId key with
    | some query => (find doc root query limit, σ)
    | Option.none =>
        let query := compileToken doc sel opts
        (find doc root query limit,
         { σ with compiled := (selId, key, query) :: σ.compiled })

/-! ## The positional resolver (`index.ts` 70-228, 271-367)

The mutually recursive resolver is fueled: each function consumes one
unit of fuel on entry and passes the remainder on, so the recursion is
structural on the fuel argument; `Option.none` signals either a runtime
error of the source (see `getDocumentRoot` and the misclassification case
of `findFilterElements`) or fuel exhaustion, which ample fuel rules out
on concrete inputs. -/

/-- Candidates at even zero-based positions (the `even` loop of
`filterByPosition`, `index.ts` 98-105). -/
def evensOf : List DomNode → List DomNode
  | [] => []
  | [a] => [a]
  | a :: _ :: r => a :: evensOf r

/-- Candidates at odd zero-based positions (the `odd` loop of
`filterByPosition`, `index.ts` 106-113). -/
def oddsOf : List DomNode → List DomNode
  | [] => []
  | _ :: t => evensOf t

mutual

/-- `filterByPosition` (`index.ts` 70-122).  `num` models
`typeof data === "string" ? parseInt(data, 10) : NaN`; the `not` case
casts the payload to a selector list (anything else crashes). -/
def filterByPosition (fuel : Nat) (doc : DomNode) (f : PFilter) (elems : List DomNode)
    (data : SelData) (opts : Options) : Option (List DomNode) :=
  match fuel with
  | 0 => Option.none
  | fuel + 1 =>
    let num : Option Int :=
      match data with
      | .num n => n
      | _ => Option.none
    match f with
    | .first => some elems
    | .lt => some elems
    | .last =>
        some (match elems.getLast? with
          | some x => [x]
          | Option.none => [])
    | .nth | .eq =>
        some (match num with
          | Option.none => []
          | some n =>
              let index : Int := if n < 0 then (elems.length : Int) + n else n
              if 0 ≤ index ∧ index < (elems.length : Int) then
                [elems.getD index.toNat (DomNode.text 0)]
              else [])
    | .gt =>
        some (match num with
          | Option.none => []
          | some n =>
              if n < (elems.length : Int) - 1 then jsSliceFrom (n + 1) elems else [])
    | .even => some (evensOf elems)
    | .odd => some (oddsOf elems)
    | .not =>
        match data with
        | .sels ss =>
            (filterParsed fuel doc ss elems opts).map
              (fun found => elems.filter (fun e => !found.contains e))
        | _ => Option.none

/-- `filterParsed` (`index.ts` 141-203): run the plain alternatives as one
flat filter, then accumulate the filtered alternatives' results in a set,
finally re-filtering `elements` to preserve input order. -/
def filterParsed (fuel : Nat) (doc : DomNode) (selector : SelGroup)
    (elements : List DomNode) (opts : Options) : Option (List DomNode) :=
  match fuel with
  | 0 => Option.none
  | fuel + 1 =>
    if elements.isEmpty then some []
    else
      let plainSelectors := (groupSelectors selector).1
      let filteredSelectors := (groupSelectors selector).2
      let step :=
        if plainSelectors.isEmpty then
          fpLoop fuel doc elements opts filteredSelectors Option.none
        else
          let filtered := filterElements doc (.many elements) plainSelectors opts
          if filteredSelectors.isEmpty then some (Sum.inl filtered)
          else
            fpLoop fuel doc elements opts filteredSelectors
              (if filtered.isEmpty then Option.none else some (insertAll [] filtered))
      match step with
      | Option.none => Option.none
      | some (Sum.inl r) => some r
      | some (Sum.inr Option.none) => some []
      | some (Sum.inr (some found)) =>
          some (if found.length = elements.length then elements
                else elements.filter (fun e => found.contains e))

/-- The `for` loop of `filterParsed` (`index.ts` 165-193).  `found` is the
insertion-ordered set; `Sum.inl` models the early `return filtered`,
`Sum.inr` falling through to the final re-filter. -/
def fpLoop (fuel : Nat) (doc : DomNode) (elements : List DomNode) (opts : Options)
    (sels : List SelSeq) (found : Option (List DomNode)) :
    Option (Sum (List DomNode) (Option (List DomNode))) :=
  match fuel with
  | 0 => Option.none
  | fuel + 1 =>
    match sels with
    | [] => some (Sum.inr found)
    | filteredSelector :: restSels =>
      let foundIsAll : Bool :=
        match found with
        | some s => s.length = elements.length
        | Option.none => false
      if foundIsAll then some (Sum.inr found)
      else
        let missing :=
          match found with
          | some s => elements.filter (fun e => isTag e && !s.contains e)
          | Option.none => elements
        if missing.isEmpty then some (Sum.inr found)
        else
          match filterBySelector fuel doc filteredSelector elements opts with
          | Option.none => Option.none
          | some filtered =>
            if filtered.isEmpty then
              fpLoop fuel doc elements opts restSels found
            else
              match found with
              | Option.none =>
                  if restSels.isEmpty then some (Sum.inl filtered)
                  else fpLoop fuel doc elements opts restSels (some (insertAll [] filtered))
              | some s =>
                  fpLoop fuel doc elements opts restSels (some (insertAll s filtered))

/-- `filterBySelector` (`index.ts` 205-228): alternatives with a traversal
run from the document root with the candidates installed as context and a
synthetic `:scope` token appended; others are resolved flat over the
candidate set. -/
def filterBySelector (fuel : Nat) (doc : DomNode) (selector : SelSeq)
    (elements : List DomNode) (opts : Options) : Option (List DomNode) :=
  match fuel with
  | 0 => Option.none
  | fuel + 1 =>
    if selector.any isTraversal then
      match (match opts.root with
             | some r => some r
             | Option.none => getDocumentRoot doc elements.head?) with
      | Option.none => Option.none
      | some root =>
          let opts' := { opts with context := some elements, relativeSelector := some false }
          findFilterElements fuel doc (.one root) (selector ++ [Selector.pseudoScope]) opts'
            true (some elements.length)
    else
      findFilterElements fuel doc (.many elements) selector opts false
        (some elements.length)

/-- `findFilterElements` (`index.ts` 271-367): split the alternative at
its first positional filter, resolve the tokens before it, apply the
filter, then resolve the remaining tokens (recursing when they still
contain a filter). -/
def findFilterElements (fuel : Nat) (doc : DomNode) (root : RootArg) (selector : SelSeq)
    (opts : Options) (queryForSelector : Bool) (totalLimit : Option Nat) :
    Option (List DomNode) :=
  match fuel with
  | 0 => Option.none
  | fuel + 1 =>
    match selector.findIdx? isFilter with
    | Option.none => Option.none
    | some filterIndex =>
      match selector[filterIndex]? with
      | some (Selector.pseudoFilter fname fdata) =>
        let sub := selector.take filterIndex
        let partLimit : Option Nat :=
          if selector.length - 1 = filterIndex then totalLimit else Option.none
        let limit := getLimit fname fdata partLimit
        if limit = some 0 then some []
        else
          let elemsNoLimit : List DomNode :=
            if sub.isEmpty then
              match root with
              | .one r => (getChildren r).filter isTag
              | .many rs => rs.filter isTag
            else if queryForSelector || sub.any isTraversal then
              findElements doc root [sub] opts limit
            else
              filterElements doc root [sub] opts
          let elems := takeLim limit elemsNoLimit
          match filterByPosition fuel doc fname elems fdata opts with
          | Option.none => Option.none
          | some result =>
            if result.isEmpty || selector.length = filterIndex + 1 then some result
            else
              let remainingSelector0 := selector.drop (filterIndex + 1)
              let remainingHasTraversal := remainingSelector0.any isTraversal
              let headIsTraversal :=
                match remainingSelector0.head? with
                | some t => isTraversal t
                | Option.none => false
              let headIsSibling :=
                match remainingSelector0.head? with
                | some Selector.sibling => true
                | some Selector.adjacent => true
                | _ => false
              let result2 :=
                if remainingHasTraversal && headIsSibling then
                  prepareContext doc (.many result) true
                else result
              let remainingSelector :=
                if remainingHasTraversal && headIsTraversal then
                  Selector.universal :: remainingSelector0
                else remainingSelector0
              let opts2 :=
                if remainingHasTraversal then
                  { opts with relativeSelector := some false,
                              rootFunc := some (fun el => result2.contains el) }
                else if opts.rootFunc.isSome then
                  { opts with rootFunc := Option.none }
                else opts
              if remainingSelector.any isFilter then
                findFilterElements fuel doc (.many result2) remainingSelector opts2 false
                  totalLimit
              else if remainingHasTraversal then
                some (findElements doc (.many result2) [remainingSelector] opts2 totalLimit)
              else
                some (filterElements doc (.many result2) [remainingSelector] opts2)
      | _ => Option.none

end

/-! ## Public API (`index.ts` 45-68, 124-130, 230-262) -/

/-- `filter` (`index.ts` 124-130) after the external parse: filter a node
list by a parsed selector group. -/
def filterSel (fuel : Nat) (doc : DomNode) (selector : SelGroup)
    (elements : List DomNode) (opts : Options) : Option (List DomNode) :=
  filterParsed fuel doc selector elements opts

/-- The `filtered.some(...)` loop of `some` (`index.ts` 64-66), with the
sequential short-circuit evaluation of `Array.prototype.some`. -/
def someLoop (fuel : Nat) (doc : DomNode) (elements : List DomNode) (opts : Options) :
    List SelSeq → Option Bool
  | [] => some false
  | s :: rest =>
      match filterBySelector fuel doc s elements opts with
      | Option.none => Option.none
      | some f => if f.isEmpty then someLoop fuel doc elements opts rest else some true

/-- `some` (`index.ts` 53-68) after the external parse. -/
def someSel (fuel : Nat) (doc : DomNode) (elements : List DomNode) (selector : SelGroup)
    (opts : Options) : Option Bool :=
  let plain := (groupSelectors selector).1
  let filtered := (groupSelectors selector).2
  if (!plain.isEmpty) && elements.any (compileToken doc plain opts).pred then some true
  else someLoop fuel doc elements opts filtered

/-- The `filtered.map(...)` of `select` (`index.ts` 242-244): resolve each
filtered alternative in order; a crash in any of them propagates. -/
def mapResults (g : SelSeq → Option (List DomNode)) : List SelSeq → Option (List (List DomNode))
  | [] => some []
  | s :: rest =>
      match g s with
      | Option.none => Option.none
      | some r => (mapResults g rest).map (r :: ·)

/-- `select` (`index.ts` 230-262) after the external parse: resolve each
filtered alternative, query all plain alternatives in a single go, and
merge multiple result lists through `uniqueSort`. -/
def select (fuel : Nat) (doc : DomNode) (selector : SelGroup) (root : RootArg)
    (opts : Options) (limit : Option Nat) : Option (List DomNode) :=
  let plain := (groupSelectors selector).1
  let filtered := (groupSelectors selector).2
  match mapResults (fun sel => findFilterElements fuel doc root sel opts true limit) filtered with
  | Option.none => Option.none
  | some results0 =>
      let results :=
        if plain.isEmpty then results0
        else results0 ++ [findElements doc root plain opts limit]
      match results with
      | [] => some []
      | [r] => some r
      | rs => some (uniqueSort doc rs.flatten)

/-- Reassembly of two position-split sublists in their original relative
order (property language for the even/odd partition statement). -/
def interleave : List DomNode → List DomNode → List DomNode
  | [], ys => ys
  | x :: xs, ys => x :: interleave ys xs
termination_by a b => a.length + b.length
decreasing_by simp; omega

/-! ## Concrete documents for the witnesses and counterexamples -/

/-- First of two sibling `div` elements under `exDoc1`. -/
def exD1 : DomNode := .elem 1 "div" [] []

/-- Second of two sibling `div` elements under `exDoc1`. -/
def exD2 : DomNode := .elem 2 "div" [] []

/-- A document whose root has the two `div` children `exD1`, `exD2`. -/
def exDoc1 : DomNode := .elem 0 "root" [] [exD1, exD2]

/-- A `div` element, first child of `exDoc3`. -/
def exDiv3 : DomNode := .elem 1 "div" [] []

/-- A `span` element, second child of `exDoc3`. -/
def exSpan3 : DomNode := .elem 2 "span" [] []

/-- A document whose root has a `div` child and a `span` child. -/
def exDoc3 : DomNode := .elem 0 "root" [] [exDiv3, exSpan3]

/-- The parsed form of the selector group `div, span:last`. -/
def exSel3 : SelGroup := [[.tag "div"], [.tag "span", .pseudoFilter .last .null]]

/-- A childless `div` element used as a single-node search root. -/
def exRoot2 : DomNode := .elem 7 "div" [] []

/-- An `svg` element (lowercase tag name), child of `exXmlRoot`. -/
def exSvg : DomNode := .elem 9 "svg" [] []

/-- An XML document root containing `exSvg`. -/
def exXmlRoot : DomNode := .elem 8 "r" [] [exSvg]

/-- First `p` child of `exDiv4`. -/
def exP1 : DomNode := .elem 2 "p" [] []

/-- Second `p` child of `exDiv4`. -/
def exP2 : DomNode := .elem 3 "p" [] []

/-- A `div` element containing the two `p` elements. -/
def exDiv4 : DomNode := .elem 1 "div" [] [exP1, exP2]

/-- The document `html > div > (p, p)`. -/
def exDoc4 : DomNode := .elem 0 "html" [] [exDiv4]

/-- The parsed form of the selector `div:first p`. -/
def exSel4 : SelGroup := [[.tag "div", .pseudoFilter .first .null, .descendant, .tag "p"]]

/-! ## Helper lemmas -/

theorem takeLim_sublist (lim : Option Nat) (l : List DomNode) :
    (takeLim lim l).Sublist l := by
  cases lim with
  | none => exact List.Sublist.refl l
  | some n => exact List.take_sublist n l

theorem takeLim_length_le (L : Nat) (l : List DomNode) :
    (takeLim (some L) l).length ≤ L :=
  l.length_take_le L

theorem jsSliceFrom_sublist (start : Int) (l : List DomNode) :
    (jsSliceFrom start l).Sublist l := by
  unfold jsSliceFrom
  split
  · exact List.drop_sublist _ l
  · exact List.drop_sublist _ l

theorem evensOf_sublist : ∀ l : List DomNode, (evensOf l).Sublist l
  | [] => List.Sublist.refl []
  | [a] => List.Sublist.refl [a]
  | a :: b :: r =>
      show (a :: evensOf r).Sublist (a :: b :: r) from
        List.cons_sublist_cons.mpr ((evensOf_sublist r).cons b)

theorem oddsOf_sublist : ∀ l : List DomNode, (oddsOf l).Sublist l
  | [] => List.Sublist.refl []
  | _ :: t => (evensOf_sublist t).cons _

theorem getLast?_mem' {l : List DomNode} {a : DomNode} (h : l.getLast? = some a) :
    a ∈ l := by
  cases l with
  | nil => simp at h
  | cons x xs =>
    rw [List.getLast?_eq_getLast_of_ne_nil (by simp)] at h
    exact Option.some_inj.mp h ▸ List.getLast_mem _

theorem getD_mem_of_lt {l : List DomNode} {i : Nat} {d : DomNode} (h : i < l.length) :
    l.getD i d ∈ l := by
  rw [List.getD_eq_getElem l d h]
  exact l.getElem_mem h

theorem ifIndex_sublist (l : List DomNode) (idx : Int) :
    (if 0 ≤ idx ∧ idx < (l.length : Int) then
        [l.getD idx.toNat (DomNode.text 0)]
      else []).Sublist l := by
  split
  case isTrue hin =>
    exact List.singleton_sublist.mpr (getD_mem_of_lt (by omega))
  case isFalse => exact List.nil_sublist l

/-- Shared result about `filterByPosition`: every filter's output is a
sublist of the candidate list. -/
theorem filterByPosition_sublist {fuel : Nat} {doc : DomNode} {f : PFilter}
    {elems : List DomNode} {data : SelData} {opts : Options} {res : List DomNode}
    (h : filterByPosition fuel doc f elems data opts = some res) :
    res.Sublist elems := by
  cases fuel with
  | zero => simp [filterByPosition] at h
  | succ fuel =>
    cases f
    case first =>
      simp only [filterByPosition] at h
      exact Option.some_inj.mp h ▸ List.Sublist.refl elems
    case lt =>
      simp only [filterByPosition] at h
      exact Option.some_inj.mp h ▸ List.Sublist.refl elems
    case last =>
      simp only [filterByPosition] at h
      cases hl : elems.getLast? with
      | none => rw [hl] at h; exact Option.some_inj.mp h ▸ List.nil_sublist elems
      | some x =>
        rw [hl] at h
        exact Option.some_inj.mp h ▸ List.singleton_sublist.mpr (getLast?_mem' hl)
    case nth =>
      cases data with
      | num n =>
        cases n with
        | none =>
            simp only [filterByPosition] at h
            exact Option.some_inj.mp h ▸ List.nil_sublist elems
        | some n =>
            simp only [filterByPosition] at h
            exact Option.some_inj.mp h ▸ ifIndex_sublist elems _
      | sels s =>
        simp only [filterByPosition] at h
        exact Option.some_inj.mp h ▸ List.nil_sublist elems
      | null =>
        simp only [filterByPosition] at h
        exact Option.some_inj.mp h ▸ List.nil_sublist elems
    case eq =>
      cases data with
      | num n =>
        cases n with
        | none =>
            simp only [filterByPosition] at h
            exact Option.some_inj.mp h ▸ List.nil_sublist elems
        | some n =>
            simp only [filterByPosition] at h
            exact Option.some_inj.mp h ▸ ifIndex_sublist elems _
      | sels s =>
        simp only [filterByPosition] at h
        exact Option.some_inj.mp h ▸ List.nil_sublist elems
      | null =>
        simp only [filterByPosition] at h
        exact Option.some_inj.mp h ▸ List.nil_sublist elems
    case gt =>
      cases data with
      | num n =>
        cases n with
        | none =>
            simp only [filterByPosition] at h
            exact Option.some_inj.mp h ▸ List.nil_sublist elems
        | some n =>
            simp only [filterByPosition] at h
            split at h
            · exact Option.some_inj.mp h ▸ jsSliceFrom_sublist _ elems
            · exact Option.some_inj.mp h ▸ List.nil_sublist elems
      | sels s =>
        simp only [filterByPosition] at h
        exact Option.some_inj.mp h ▸ List.nil_sublist elems
      | null =>
        simp only [filterByPosition] at h
        exact Option.some_inj.mp h ▸ List.nil_sublist elems
    case even =>
      simp only [filterByPosition] at h
      exact Option.some_inj.mp h ▸ evensOf_sublist elems
    case odd =>
      simp only [filterByPosition] at h
      exact Option.some_inj.mp h ▸ oddsOf_sublist elems
    case not =>
      cases data with
      | num n => simp [filterByPosition] at h
      | null => simp [filterByPosition] at h
      | sels ss =>
        simp only [filterByPosition] at h
        cases hp : filterParsed fuel doc ss elems opts with
        | none => rw [hp] at h; simp at h
        | some F =>
          rw [hp] at h
          simp only [Option.map_some', Option.some_inj] at h
          exact h ▸ List.filter_sublist elems

theorem evensOf_getElem? : ∀ (l : List DomNode) (i : Nat), (evensOf l)[i]? = l[2 * i]?
  | [], i => by simp [evensOf]
  | [a], 0 => by simp [evensOf]
  | [a], (i + 1) => by
      show ([a])[i + 1]? = ([a])[2 * (i + 1)]?
      rw [List.getElem?_eq_none (l := [a]) (by simp),
        List.getElem?_eq_none (l := [a]) (by simp; omega)]
  | a :: b :: r, 0 => by
      show (a :: evensOf r)[0]? = (a :: b :: r)[0]?
      simp
  | a :: b :: r, (i + 1) => by
      show (a :: evensOf r)[i + 1]? = (a :: b :: r)[2 * (i + 1)]?
      have h2 : 2 * (i + 1) = 2 * i + 1 + 1 := by ring
      rw [h2]
      simp only [List.getElem?_cons_succ]
      exact evensOf_getElem? r i

theorem oddsOf_getElem? : ∀ (l : List DomNode) (i : Nat), (oddsOf l)[i]? = l[2 * i + 1]?
  | [], i => by simp [oddsOf]
  | a :: t, i => by
      show (evensOf t)[i]? = (a :: t)[2 * i + 1]?
      simp only [List.getElem?_cons_succ]
      exact evensOf_getElem? t i

theorem evensOf_cons (x : DomNode) (t : List DomNode) :
    evensOf (x :: t) = x :: oddsOf t := by
  cases t <;> rfl

theorem interleave_nil (ys : List DomNode) : interleave [] ys = ys := by
  simp [interleave]

theorem interleave_cons (x : DomNode) (xs ys : List DomNode) :
    interleave (x :: xs) ys = x :: interleave ys xs := by
  simp [interleave]

theorem interleave_evens_odds : ∀ l : List DomNode, interleave (evensOf l) (oddsOf l) = l
  | [] => by rw [show evensOf [] = [] from rfl, show oddsOf [] = [] from rfl, interleave_nil]
  | [a] => by
      rw [show evensOf [a] = [a] from rfl, show oddsOf [a] = [] from rfl,
        interleave_cons, interleave_nil]
  | a :: b :: r => by
      rw [show evensOf (a :: b :: r) = a :: evensOf r from rfl,
        show oddsOf (a :: b :: r) = evensOf (b :: r) from rfl,
        evensOf_cons b r, interleave_cons, interleave_cons, interleave_evens_odds r]

theorem evens_odds_disjoint {l : List DomNode} (hnd : l.Nodup) (x : DomNode) :
    ¬ (x ∈ evensOf l ∧ x ∈ oddsOf l) := by
  rintro ⟨he, ho⟩
  obtain ⟨i, hi, hie⟩ := List.getElem_of_mem he
  obtain ⟨j, hj, hje⟩ := List.getElem_of_mem ho
  have h1 : l[2 * i]? = some x := by
    rw [← evensOf_getElem?]
    simp [List.getElem?_eq_getElem hi, hie]
  have h2 : l[2 * j + 1]? = some x := by
    rw [← oddsOf_getElem?]
    simp [List.getElem?_eq_getElem hj, hje]
  have hlt : 2 * i < l.length := by
    by_contra hge
    rw [List.getElem?_eq_none (by omega)] at h1
    simp at h1
  have := List.getElem?_inj hlt hnd (h1.trans h2.symm)
  omega

theorem mem_dedupKeepLast {a : DomNode} {l : List DomNode} (h : a ∈ dedupKeepLast l) :
    a ∈ l := by
  induction l with
  | nil => simp [dedupKeepLast] at h
  | cons x xs ih =>
    by_cases hc : xs.contains x
    · simp only [dedupKeepLast, hc, if_true] at h
      exact List.mem_cons_of_mem x (ih h)
    · simp only [dedupKeepLast, hc, if_false] at h
      rcases List.mem_cons.mp h with h1 | h2
      · exact h1 ▸ List.mem_cons_self x xs
      · exact List.mem_cons_of_mem x (ih h2)

theorem dedupKeepLast_nodup (l : List DomNode) : (dedupKeepLast l).Nodup := by
  induction l with
  | nil => simp [dedupKeepLast]
  | cons x xs ih =>
    by_cases hc : xs.contains x
    · simp only [dedupKeepLast, hc, if_true]
      exact ih
    · simp only [dedupKeepLast, hc, if_false]
      exact List.nodup_cons.mpr
        ⟨fun hmem => hc (List.elem_iff.mpr (mem_dedupKeepLast hmem)), ih⟩

theorem uniqueSort_nodup (doc : DomNode) (l : List DomNode) : (uniqueSort doc l).Nodup :=
  (List.perm_insertionSort (docLE doc) (dedupKeepLast l)).nodup_iff.mpr
    (dedupKeepLast_nodup l)

theorem uniqueSort_sorted (doc : DomNode) (l : List DomNode) :
    (uniqueSort doc l).Pairwise (docLE doc) :=
  List.sorted_insertionSort (docLE doc) (dedupKeepLast l)

theorem find_length_le (doc : DomNode) (root : RootArg) (query : CompiledQuery) (L : Nat) :
    (find doc root query (some L)).length ≤ L :=
  takeLim_length_le L _

theorem fastPath_length_le {root : DomNode} {sel : SelGroup} {L : Nat} {res : List DomNode}
    (h : fastPath root sel (some L) = some res) : res.length ≤ L := by
  unfold fastPath at h
  cases hid : isSimpleIdSelector sel with
  | some v =>
      rw [hid] at h
      exact Option.some_inj.mp h ▸ takeLim_length_le L _
  | none =>
    rw [hid] at h
    cases hcl : isSimpleClassSelector sel with
    | some v =>
        rw [hcl] at h
        exact Option.some_inj.mp h ▸ takeLim_length_le L _
    | none =>
      rw [hcl] at h
      cases htg : isSimpleTagSelector sel with
      | some v =>
          rw [htg] at h
          exact Option.some_inj.mp h ▸ takeLim_length_le L _
      | none => rw [htg] at h; simp at h

theorem findElements_length_le (doc : DomNode) (root : RootArg) (sel : SelGroup)
    (opts : Options) (L : Nat) : (findElements doc root sel opts (some L)).length ≤ L := by
  cases root with
  | many ns =>
      show (findElementsGeneral doc (RootArg.many ns) sel opts (some L)).length ≤ L
      exact takeLim_length_le L _
  | one r =>
    cases hfp : fastPath r sel (some L) with
    | some res =>
        have he : findElements doc (RootArg.one r) sel opts (some L) = res := by
          simp only [findElements, hfp]
        rw [he]
        exact fastPath_length_le hfp
    | none =>
        have he : findElements doc (RootArg.one r) sel opts (some L) =
            findElementsGeneral doc (RootArg.one r) sel opts (some L) := by
          simp only [findElements, hfp]
        rw [he]
        exact takeLim_length_le L _

theorem mapResults_length {g : SelSeq → Option (List DomNode)} :
    ∀ {l : List SelSeq} {rs : List (List DomNode)},
      mapResults g l = some rs → rs.length = l.length := by
  intro l
  induction l with
  | nil =>
      intro rs h
      simp only [mapResults, Option.some_inj] at h
      simp [← h]
  | cons s rest ih =>
    intro rs h
    simp only [mapResults] at h
    cases hg : g s with
    | none => rw [hg] at h; simp at h
    | some r =>
      rw [hg] at h
      cases hm : mapResults g rest with
      | none => rw [hm] at h; simp at h
      | some rs' =>
        rw [hm] at h
        simp only [Option.map_some', Option.some_inj] at h
        subst h
        simp [ih hm]

theorem takeLim_nil (lim : Option Nat) : takeLim lim [] = [] := by
  cases lim <;> simp [takeLim]

theorem filterElements_sublist (doc : DomNode) (elements : List DomNode) (sel : SelGroup)
    (opts : Options) :
    (filterElements doc (.many elements) sel opts).Sublist elements := by
  simp only [filterElements, RootArg.toList]
  split
  · exact List.filter_sublist elements
  · exact (List.filter_sublist _).trans (List.filter_sublist elements)

theorem filterElements_many_nil (doc : DomNode) (sel : SelGroup) (opts : Options) :
    filterElements doc (.many []) sel opts = [] := rfl

theorem prepareContext_many_nil (doc : DomNode) (flag : Bool) :
    prepareContext doc (.many []) flag = [] := by
  cases flag <;> rfl

theorem findElements_many_nil (doc : DomNode) (sel : SelGroup) (opts : Options)
    (lim : Option Nat) : findElements doc (.many []) sel opts lim = [] := by
  show findElementsGeneral doc (.many []) sel opts lim = []
  unfold findElementsGeneral find
  rw [prepareContext_many_nil]
  simp [takeLim_nil]

theorem any_isTraversal_take {s : SelSeq} (n : Nat) (h : s.any isTraversal = false) :
    (s.take n).any isTraversal = false := by
  rw [List.any_eq_false] at h ⊢
  exact fun x hx => h x ((List.take_sublist n s).subset hx)

theorem any_isTraversal_drop {s : SelSeq} (n : Nat) (h : s.any isTraversal = false) :
    (s.drop n).any isTraversal = false := by
  rw [List.any_eq_false] at h ⊢
  exact fun x hx => h x ((List.drop_sublist n s).subset hx)

theorem seqHasFilter_eq_any (s : SelSeq) : seqHasFilter s = s.any isFilter := by
  induction s with
  | nil => rfl
  | cons a t ih => simp [seqHasFilter, List.any_cons, ih]

theorem findIdx?_spec {p : Selector → Bool} :
    ∀ {l : List Selector} {i j : Nat}, List.findIdx? p l j = some i →
      ∃ a, l[i - j]? = some a ∧ p a = true ∧ j ≤ i := by
  intro l
  induction l with
  | nil => intro i j h; simp [List.findIdx?] at h
  | cons x t ih =>
    intro i j h
    rw [List.findIdx?_cons] at h
    by_cases hp : p x = true
    · rw [if_pos hp] at h
      have hji : j = i := Option.some_inj.mp h
      refine ⟨x, ?_, hp, by omega⟩
      simp [hji]
    · rw [if_neg hp] at h
      obtain ⟨a, ha, hpa, hji⟩ := ih h
      refine ⟨a, ?_, hpa, by omega⟩
      have hd : i - j = (i - (j + 1)) + 1 := by omega
      rw [hd, List.getElem?_cons_succ]
      exact ha

/-- Members of the filtered part of `groupSelectors` contain a filter. -/
theorem mem_filtered_hasFilter {selector : SelGroup} {s : SelSeq}
    (h : s ∈ (groupSelectors selector).2) : seqHasFilter s = true :=
  List.of_mem_filter h

/-- Unfolding of the `nth`/`eq` branch of `filterByPosition` on a numeric
payload. -/
theorem filterByPosition_eq_unfold (fuel : Nat) (doc : DomNode) (elems : List DomNode)
    (n : Int) (opts : Options) :
    filterByPosition (fuel + 1) doc .eq elems (.num (some n)) opts =
      some (if 0 ≤ (if n < 0 then (elems.length : Int) + n else n) ∧
               (if n < 0 then (elems.length : Int) + n else n) < (elems.length : Int) then
              [elems.getD (if n < 0 then (elems.length : Int) + n else n).toNat
                (DomNode.text 0)]
            else []) := rfl

/-! ## Claim theorems -/

/-- C6: for every candidate list and integer payload `n`, the `nth`/`eq`
positional filter returns the singleton at index `n` when `0 ≤ n < count`,
the singleton at index `count + n` when `n` is negative and `count + n` is
in range (so in-range negative `n` agrees with payload `count + n`), and
the empty list when the index is out of range in either direction, never
raising an error; `nth` and `eq` behave identically. -/
theorem c6_eq_semantics (fuel : Nat) (doc : DomNode) (elems : List DomNode) (n : Int)
    (opts : Options) :
    (0 ≤ n → n < (elems.length : Int) →
      filterByPosition (fuel + 1) doc .eq elems (.num (some n)) opts =
        some [elems.getD n.toNat (DomNode.text 0)]) ∧
    (n < 0 → 0 ≤ (elems.length : Int) + n →
      filterByPosition (fuel + 1) doc .eq elems (.num (some n)) opts =
        some [elems.getD ((elems.length : Int) + n).toNat (DomNode.text 0)]) ∧
    ((elems.length : Int) ≤ n ∨ (elems.length : Int) + n < 0 →
      filterByPosition (fuel + 1) doc .eq elems (.num (some n)) opts = some []) ∧
    (n < 0 → 0 ≤ (elems.length : Int) + n →
      filterByPosition (fuel + 1) doc .eq elems (.num (some n)) opts =
        filterByPosition (fuel + 1) doc .eq elems
          (.num (some ((elems.length : Int) + n))) opts) ∧
    filterByPosition (fuel + 1) doc .nth elems (.num (some n)) opts =
      filterByPosition (fuel + 1) doc .eq elems (.num (some n)) opts := by
  refine ⟨?p1, ?p2, ?p3, ?p4, rfl⟩
  case p1 =>
    intro h0 hlt
    rw [filterByPosition_eq_unfold]
    rw [if_neg (show ¬ n < 0 by omega), if_pos ⟨h0, hlt⟩]
  case p2 =>
    intro hneg hge
    rw [filterByPosition_eq_unfold]
    rw [if_pos hneg, if_pos ⟨hge, by omega⟩]
  case p3 =>
    intro hout
    rw [filterByPosition_eq_unfold]
    rcases hout with hbig | hsmall
    · rw [if_neg (show ¬ n < 0 by omega), if_neg (by omega)]
    · rw [if_pos (show n < 0 by omega), if_neg (by omega)]
  case p4 =>
    intro hneg hge
    rw [filterByPosition_eq_unfold, filterByPosition_eq_unfold]
    rw [if_pos hneg, if_neg (show ¬ (elems.length : Int) + n < 0 by omega)]

/-- C6 witness: `:eq(1)` on a three-element candidate list yields the
middle element, and `:eq(-1)` equals `:eq(2)`. -/
theorem c6_eq_semantics_witness :
    filterByPosition 5 exDoc1 .eq [exD1, exD2, exDiv3] (.num (some 1)) {} =
      some [[exD1, exD2, exDiv3].getD (1 : Int).toNat (DomNode.text 0)] :=
  (c6_eq_semantics 4 exDoc1 [exD1, exD2, exDiv3] 1 {}).1 (by decide) (by decide)

/-- C7: the `not` positional filter over candidates `C` with nested
selector list `S` is exactly the set difference of `C` and
`filterParsed S C` in `C`'s original order; the two parts are disjoint
and together cover all of `C`. -/
theorem c7_not_set_difference (fuel : Nat) (doc : DomNode) (elems : List DomNode)
    (ss : SelGroup) (opts : Options) (F : List DomNode)
    (h : filterParsed fuel doc ss elems opts = some F) :
    filterByPosition (fuel + 1) doc .not elems (.sels ss) opts =
      some (elems.filter (fun e => !F.contains e)) ∧
    (∀ x, x ∈ elems.filter (fun e => !F.contains e) → x ∉ F) ∧
    (∀ x, x ∈ elems → x ∈ elems.filter (fun e => !F.contains e) ∨ x ∈ F) := by
  have h1 : filterByPosition (fuel + 1) doc .not elems (.sels ss) opts =
      (filterParsed fuel doc ss elems opts).map
        (fun found => elems.filter (fun e => !found.contains e)) := rfl
  refine ⟨by rw [h1, h]; rfl, ?disj, ?cover⟩
  case disj =>
    intro x hx hxF
    have hm := (List.mem_filter.mp hx).2
    have hc : F.contains x = true := List.elem_iff.mpr hxF
    rw [hc] at hm
    simp at hm
  case cover =>
    intro x hx
    by_cases hm : x ∈ F
    · exact Or.inr hm
    · refine Or.inl (List.mem_filter.mpr ⟨hx, ?m⟩)
      cases hc : F.contains x with
      | true => exact absurd (List.elem_iff.mp hc) hm
      | false => simp [hc]

/-- C7 witness: `:not(div)` over a `div` and a `span` keeps exactly the
`span`, disjoint from and covering the candidates together with the
`div`. -/
theorem c7_not_set_difference_witness :
    filterByPosition 21 exDoc3 .not [exDiv3, exSpan3] (.sels [[.tag "div"]]) {} =
      some ([exDiv3, exSpan3].filter (fun e => !(List.contains [exDiv3] e))) :=
  (c7_not_set_difference 20 exDoc3 [exDiv3, exSpan3] [[.tag "div"]] {} [exDiv3]
    (by decide)).1

/-- C8: the `even` filter returns exactly the candidates at even zero-based
positions and `odd` exactly those at odd positions; over a duplicate-free
candidate list the two results are disjoint, and reassembling them in the
original relative order restores the candidate list. -/
theorem c8_even_odd_partition (fuel : Nat) (doc : DomNode) (elems : List DomNode)
    (data : SelData) (opts : Options) :
    filterByPosition (fuel + 1) doc .even elems data opts = some (evensOf elems) ∧
    filterByPosition (fuel + 1) doc .odd elems data opts = some (oddsOf elems) ∧
    (∀ i, (evensOf elems)[i]? = elems[2 * i]?) ∧
    (∀ i, (oddsOf elems)[i]? = elems[2 * i + 1]?) ∧
    (elems.Nodup → ∀ x, ¬ (x ∈ evensOf elems ∧ x ∈ oddsOf elems)) ∧
    interleave (evensOf elems) (oddsOf elems) = elems :=
  ⟨rfl, rfl, evensOf_getElem? elems, oddsOf_getElem? elems,
    fun hnd => evens_odds_disjoint hnd, interleave_evens_odds elems⟩

/-- C8 witness: the partition instantiated on a concrete three-element
candidate list. -/
theorem c8_even_odd_partition_witness :
    ([exD1, exD2, exDiv3].Nodup → ∀ x, ¬ (x ∈ evensOf [exD1, exD2, exDiv3] ∧
      x ∈ oddsOf [exD1, exD2, exDiv3])) ∧
    interleave (evensOf [exD1, exD2, exDiv3]) (oddsOf [exD1, exD2, exDiv3]) =
      [exD1, exD2, exDiv3] :=
  ⟨(c8_even_odd_partition 4 exDoc1 [exD1, exD2, exDiv3] .null {}).2.2.2.2.1,
   (c8_even_odd_partition 4 exDoc1 [exD1, exD2, exDiv3] .null {}).2.2.2.2.2⟩

/-- C10: every positional filter's result is a subsequence of its
candidate list: drawn from the candidates, in their relative order, and
duplicate-free whenever the candidates are. -/
theorem c10_filterByPosition_subsequence (fuel : Nat) (doc : DomNode) (f : PFilter)
    (elems : List DomNode) (data : SelData) (opts : Options) (res : List DomNode)
    (h : filterByPosition fuel doc f elems data opts = some res) :
    res.Sublist elems ∧ (elems.Nodup → res.Nodup) :=
  ⟨filterByPosition_sublist h, fun hnd => (filterByPosition_sublist h).nodup hnd⟩

/-- C10 witness: the `gt` filter on a concrete list returns a
subsequence. -/
theorem c10_filterByPosition_subsequence_witness :
    List.Sublist [exD2, exDiv3] [exD1, exD2, exDiv3] ∧
    ([exD1, exD2, exDiv3].Nodup → [exD2, exDiv3].Nodup) :=
  c10_filterByPosition_subsequence 5 exDoc1 .gt [exD1, exD2, exDiv3] (.num (some 0)) {}
    [exD2, exDiv3] (by decide)

/-- C1 counterexample: for the single-alternative selector `:lt(2)` over
the node-list root `[exD2, exD1]` (both children of `exDoc1`, listed
against document order), `select` returns `[exD2, exD1]`, which is not in
document (pre-order) order -- the single-alternative result is passed
through without the merge/sort step. -/
theorem c1_counterexample :
    select 20 exDoc1 [[.pseudoFilter .lt (.num (some 2))]] (.many [exD2, exD1]) {}
        Option.none = some [exD2, exD1] ∧
    ¬ ([exD2, exD1].Pairwise (docLE exDoc1)) := by
  constructor
  · decide
  · decide

/-- C1 (amended): whenever the merge step actually runs -- the selector
group yields at least two per-alternative result lists (two or more
filtered alternatives, or a plain part alongside a filtered part) -- the
list returned by `select` is duplicate-free and sorted by document
(pre-order) position.  A single-alternative result is returned directly,
so a node-list root supplied out of document order (or with repeated
references) can surface as is. -/
theorem c1_select_merge_sorted (fuel : Nat) (doc : DomNode) (selector : SelGroup)
    (root : RootArg) (opts : Options) (limit : Option Nat) (res : List DomNode)
    (h : select fuel doc selector root opts limit = some res)
    (hmulti : 2 ≤ (groupSelectors selector).2.length ∨
      (1 ≤ (groupSelectors selector).1.length ∧ 1 ≤ (groupSelectors selector).2.length)) :
    res.Nodup ∧ res.Pairwise (docLE doc) := by
  simp only [select] at h
  cases hm : mapResults (fun sel => findFilterElements fuel doc root sel opts true limit)
      (groupSelectors selector).2 with
  | none => rw [hm] at h; exact absurd h (by simp)
  | some results0 =>
    rw [hm] at h
    dsimp only at h
    have hlen : results0.length = (groupSelectors selector).2.length := mapResults_length hm
    by_cases hp : (groupSelectors selector).1.isEmpty = true
    · rw [if_pos hp] at h
      have h2 : 2 ≤ results0.length := by
        rcases hmulti with hge | ⟨hpne, _⟩
        · omega
        · rw [List.isEmpty_iff.mp hp] at hpne
          simp at hpne
      match results0, h2, h with
      | a :: b :: rest, _, h =>
        have he : uniqueSort doc ((a :: b :: rest).flatten) = res := Option.some_inj.mp h
        exact he ▸ ⟨uniqueSort_nodup doc _, uniqueSort_sorted doc _⟩
    · rw [if_neg hp] at h
      have h2 : 2 ≤ (results0 ++
          [findElements doc root (groupSelectors selector).1 opts limit]).length := by
        rw [List.length_append]
        rcases hmulti with hge | ⟨_, hfge⟩ <;> simp only [List.length_singleton] <;> omega
      match hs : results0 ++ [findElements doc root (groupSelectors selector).1 opts limit],
          h2, h with
      | a :: b :: rest, _, h =>
        have he : uniqueSort doc ((a :: b :: rest).flatten) = res := Option.some_inj.mp h
        exact he ▸ ⟨uniqueSort_nodup doc _, uniqueSort_sorted doc _⟩

/-- C1 witness: `div, span:last` over `exDoc3` (one plain and one filtered
alternative) merges to a duplicate-free, document-ordered list. -/
theorem c1_select_merge_sorted_witness :
    [exDiv3, exSpan3].Nodup ∧ [exDiv3, exSpan3].Pairwise (docLE exDoc3) :=
  c1_select_merge_sorted 20 exDoc3 exSel3 (.one exDoc3) {} Option.none [exDiv3, exSpan3]
    (by decide) (Or.inr ⟨by decide, by decide⟩)

/-- C2: divergence of the fast paths from the general compiled-predicate
path.  For the single-node root `exRoot2` (a childless `div`) and the
selector `div`, the fast path -- and hence `findElements` -- returns the
root itself, while the general path searches only the root's subtree and
returns nothing; moreover under `xmlMode` the fast tag path still matches
case-insensitively (`SVG` matches an `svg` element) while the general path
matches case-sensitively. -/
theorem c2_fastpath_divergence :
    findElements exRoot2 (.one exRoot2) [[.tag "div"]] {} Option.none = [exRoot2] ∧
    fastFindByTag exRoot2 "div" Option.none = [exRoot2] ∧
    findElementsGeneral exRoot2 (.one exRoot2) [[.tag "div"]] {} Option.none = [] ∧
    findElements exXmlRoot (.one exXmlRoot) [[.tag "SVG"]] { xmlMode := true }
      Option.none = [exSvg] ∧
    findElementsGeneral exXmlRoot (.one exXmlRoot) [[.tag "SVG"]] { xmlMode := true }
      Option.none = [] := by
  refine ⟨by decide, by decide, by decide, by decide, by decide⟩

/-- C3 counterexample: `div, span:last` over `exDoc3` with limit `1`
returns two elements -- the merged multi-alternative list is never
re-truncated to the limit. -/
theorem c3_counterexample :
    select 20 exDoc3 exSel3 (.one exDoc3) {} (some 1) = some [exDiv3, exSpan3] ∧
    ¬ ([exDiv3, exSpan3].length ≤ 1) := by
  constructor
  · decide
  · decide

/-- C3 (amended): the limit bounds each per-alternative search; in
particular, when every alternative of the group is plain (no positional
filter anywhere), the result of `select` has at most `L` elements.  With
several result lists the merged output may exceed `L`. -/
theorem c3_limit_plain (fuel : Nat) (doc : DomNode) (selector : SelGroup) (root : RootArg)
    (opts : Options) (L : Nat) (res : List DomNode)
    (hfil : (groupSelectors selector).2 = [])
    (h : select fuel doc selector root opts (some L) = some res) :
    res.length ≤ L := by
  simp only [select] at h
  rw [hfil] at h
  simp only [mapResults] at h
  by_cases hp : (groupSelectors selector).1.isEmpty = true
  · rw [if_pos hp] at h
    have he : ([] : List DomNode) = res := Option.some_inj.mp h
    simp [← he]
  · rw [if_neg hp] at h
    have he : findElements doc root (groupSelectors selector).1 opts (some L) = res :=
      Option.some_inj.mp h
    exact he ▸ findElements_length_le doc root _ opts L

/-- C3 witness: a single plain `div` alternative with limit `1` over
`exDoc1` (which has two `div` children) returns one element. -/
theorem c3_limit_plain_witness : [exD1].length ≤ 1 :=
  c3_limit_plain 20 exDoc1 [[.tag "div"]] (.one exDoc1) {} 1 [exD1] rfl (by decide)

theorem cacheLookup_insert (σ : CacheState) (i : Nat) (k : String) (q : CompiledQuery) :
    cacheLookup { σ with compiled := (i, k, q) :: σ.compiled } i k = some q := by
  simp [cacheLookup, List.find?]

theorem cacheLookup_clearCaches (σ : CacheState) (i : Nat) (k : String) :
    cacheLookup (clearCaches σ) i k = cacheLookup σ i k := rfl

/-- The three cache-transparency facts for the general (non-fast-path)
branch of `findElementsC`. -/
theorem fECG_parts (σ : CacheState) (doc : DomNode) (selId : Nat) (sel : SelGroup)
    (root : RootArg) (opts : Options) (limit : Option Nat) :
    (findElementsC.findElementsCGeneral
        (findElementsC.findElementsCGeneral σ doc selId sel root opts limit).2
        doc selId sel root opts limit).1 =
      (findElementsC.findElementsCGeneral σ doc selId sel root opts limit).1 ∧
    (findElementsC.findElementsCGeneral
        (clearCaches (findElementsC.findElementsCGeneral σ doc selId sel root opts
          limit).2) doc selId sel root opts limit).1 =
      (findElementsC.findElementsCGeneral σ doc selId sel root opts limit).1 ∧
    (findElementsC.findElementsCGeneral { compiled := [], matchCache := [] }
        doc selId sel root opts limit).1 = findElementsGeneral doc root sel opts limit := by
  refine ⟨?_, ?_, ?_⟩
  · cases hl : cacheLookup σ selId (getCacheKey opts) with
    | some q => simp [findElementsC.findElementsCGeneral, hl]
    | none => simp [findElementsC.findElementsCGeneral, hl, cacheLookup_insert]
  · cases hl : cacheLookup σ selId (getCacheKey opts) with
    | some q =>
        simp [findElementsC.findElementsCGeneral, hl, cacheLookup_clearCaches]
    | none =>
        simp [findElementsC.findElementsCGeneral, hl, cacheLookup_clearCaches,
          cacheLookup_insert]
  · simp [findElementsC.findElementsCGeneral, findElementsGeneral, cacheLookup]

/-- C5: the compiled-selector cache is behaviorally transparent.  For a
fixed selector-group object (`selId`, `sel`) and fixed options, root,
tree and limit: a repeated identical query returns the same list as the
first; running `clearCaches` between the two queries does not change the
second result; and from the empty cache state the stateful engine agrees
with the pure (freshly compiling) `findElements`. -/
theorem c5_cache_transparent (σ : CacheState) (doc : DomNode) (selId : Nat)
    (sel : SelGroup) (root : RootArg) (opts : Options) (limit : Option Nat) :
    ((findElementsC (findElementsC σ doc selId sel root opts limit).2
        doc selId sel root opts limit).1 =
      (findElementsC σ doc selId sel root opts limit).1) ∧
    ((findElementsC (clearCaches (findElementsC σ doc selId sel root opts limit).2)
        doc selId sel root opts limit).1 =
      (findElementsC σ doc selId sel root opts limit).1) ∧
    ((findElementsC { compiled := [], matchCache := [] } doc selId sel root opts
        limit).1 = findElements doc root sel opts limit) := by
  cases root with
  | one r =>
    cases hfp : fastPath r sel limit with
    | some fres =>
        exact ⟨by simp [findElementsC, hfp], by simp [findElementsC, hfp],
          by simp [findElementsC, findElements, hfp]⟩
    | none =>
        have hparts := fECG_parts σ doc selId sel (.one r) opts limit
        refine ⟨?_, ?_, ?_⟩
        · simpa [findElementsC, hfp] using hparts.1
        · simpa [findElementsC, hfp] using hparts.2.1
        · have h3 := (fECG_parts σ doc selId sel (.one r) opts limit).2.2
          simp only [findElementsC, hfp]
          rw [h3]
          simp [findElements, hfp]
  | many ns =>
    have hparts := fECG_parts σ doc selId sel (.many ns) opts limit
    refine ⟨?_, ?_, ?_⟩
    · simpa [findElementsC] using hparts.1
    · simpa [findElementsC] using hparts.2.1
    · have h3 := (fECG_parts σ doc selId sel (.many ns) opts limit).2.2
      simp only [findElementsC]
      rw [h3]
      simp [findElements]


/-- Over a traversal-free selector with a node-list root and
query-for-selector disabled, `findFilterElements` only ever filters the
candidate list: its result is a sublist of the roots. -/
theorem travFree_ffe (doc : DomNode) : ∀ (fuel : Nat)
    (elements : List DomNode) (selector : SelSeq) (opts : Options)
    (lim : Option Nat) (res : List DomNode),
    selector.any isTraversal = false →
    findFilterElements fuel doc (.many elements) selector opts false lim = some res →
    res.Sublist elements := by
  intro fuel
  induction fuel using Nat.strong_induction_on with
  | _ fuel IH =>
  intro elements selector opts lim res hfree h
  cases fuel with
  | zero => simp [findFilterElements] at h
  | succ f =>
    simp only [findFilterElements] at h
    cases hidx : selector.findIdx? isFilter with
    | none => rw [hidx] at h; simp at h
    | some fi =>
      rw [hidx] at h
      dsimp only at h
      cases htok : selector[fi]? with
      | none => rw [htok] at h; simp at h
      | some tok =>
        rw [htok] at h
        cases tok
        case pseudoFilter fname fdata =>
          have hsub : (selector.take fi).any isTraversal = false :=
            any_isTraversal_take fi hfree
          have hdrop : (selector.drop (fi + 1)).any isTraversal = false :=
            any_isTraversal_drop (fi + 1) hfree
          simp only [hsub, hdrop, Bool.false_or, Bool.false_and, Bool.false_eq_true,
            if_false] at h
          generalize (if List.length selector - 1 = fi then lim else Option.none) = pl at h
          split at h
          · exact Option.some_inj.mp h ▸ List.nil_sublist elements
          · have helems : (takeLim (getLimit fname fdata pl)
                (if (List.take fi selector).isEmpty = true then List.filter isTag elements
                 else filterElements doc (RootArg.many elements) [List.take fi selector]
                   opts)).Sublist elements := by
              refine (takeLim_sublist _ _).trans ?_
              split
              · exact List.filter_sublist elements
              · exact filterElements_sublist doc elements _ opts
            split at h
            · simp at h
            · rename_i result hfp
              have hres : result.Sublist elements :=
                (filterByPosition_sublist hfp).trans helems
              split at h
              · exact Option.some_inj.mp h ▸ hres
              · split at h
                · exact (IH f (by omega) result (List.drop (fi + 1) selector) _ lim res
                    hdrop h).trans hres
                · exact Option.some_inj.mp h ▸
                    ((filterElements_sublist doc result _ _).trans hres)
        all_goals simp at h

/-- Over a traversal-free alternative, `filterBySelector` returns a
sublist of the candidate list. -/
theorem travFree_fbs (doc : DomNode) (fuel : Nat) (selector : SelSeq)
    (elements : List DomNode) (opts : Options) (res : List DomNode)
    (hfree : selector.any isTraversal = false)
    (h : filterBySelector fuel doc selector elements opts = some res) :
    res.Sublist elements := by
  cases fuel with
  | zero => simp [filterBySelector] at h
  | succ f =>
    simp only [filterBySelector, hfree, Bool.false_eq_true, if_false] at h
    exact travFree_ffe doc f elements selector opts (some elements.length) res hfree h

/-- Over traversal-free filtered alternatives, an early return of the
`filterParsed` loop is a sublist of the candidate list. -/
theorem travFree_loop (doc : DomNode) : ∀ (fuel : Nat)
    (elements : List DomNode) (opts : Options) (sels : List SelSeq)
    (found : Option (List DomNode)) (r : List DomNode),
    (∀ s ∈ sels, s.any isTraversal = false) →
    fpLoop fuel doc elements opts sels found = some (Sum.inl r) →
    r.Sublist elements := by
  intro fuel
  induction fuel using Nat.strong_induction_on with
  | _ fuel IH =>
  intro elements opts sels found r hfree h
  cases fuel with
  | zero => simp [fpLoop] at h
  | succ f =>
    simp only [fpLoop] at h
    cases sels with
    | nil => simp at h
    | cons s t =>
      dsimp only at h
      split at h
      · simp at h
      · split at h
        · simp at h
        · split at h
          · simp at h
          · rename_i filtered hfbs
            have hfil : filtered.Sublist elements :=
              travFree_fbs doc f s elements opts filtered
                (hfree s (List.mem_cons_self s t)) hfbs
            split at h
            · exact IH f (by omega) elements opts t found r
                (fun x hx => hfree x (List.mem_cons_of_mem s hx)) h
            · split at h
              · split at h
                · have hinj : Sum.inl filtered = Sum.inl r := Option.some_inj.mp h
                  have : filtered = r := by injection hinj
                  exact this ▸ hfil
                · exact IH f (by omega) elements opts t _ r
                    (fun x hx => hfree x (List.mem_cons_of_mem s hx)) h
              · exact IH f (by omega) elements opts t _ r
                  (fun x hx => hfree x (List.mem_cons_of_mem s hx)) h

/-- Over a selector group whose alternatives are all traversal-free,
`filterParsed` returns a sublist of the candidate list. -/
theorem travFree_fp (doc : DomNode) (fuel : Nat) (selector : SelGroup)
    (elements : List DomNode) (opts : Options) (res : List DomNode)
    (hfree : ∀ s ∈ selector, s.any isTraversal = false)
    (h : filterParsed fuel doc selector elements opts = some res) :
    res.Sublist elements := by
  have hfilfree : ∀ s ∈ (groupSelectors selector).2, s.any isTraversal = false :=
    fun s hs => hfree s (List.mem_of_mem_filter hs)
  cases fuel with
  | zero => simp [filterParsed] at h
  | succ f =>
    simp only [filterParsed] at h
    split at h
    · exact Option.some_inj.mp h ▸ List.nil_sublist elements
    · split at h
      · simp at h
      · rename_i r0 hstep
        have hr : r0 = res := Option.some_inj.mp h
        subst hr
        split at hstep
        · exact travFree_loop doc f elements opts _ _ r0 hfilfree hstep
        · split at hstep
          · have hinj : Sum.inl (filterElements doc (RootArg.many elements)
                (groupSelectors selector).1 opts) = Sum.inl r0 :=
              Option.some_inj.mp hstep
            have heq : filterElements doc (RootArg.many elements)
                (groupSelectors selector).1 opts = r0 := by injection hinj
            exact heq ▸ filterElements_sublist doc elements _ opts
          · exact travFree_loop doc f elements opts _ _ r0 hfilfree hstep
      · exact Option.some_inj.mp h ▸ List.nil_sublist elements
      · rename_i fl hstep
        have hr := Option.some_inj.mp h
        refine hr ▸ ?_
        split
        · exact List.Sublist.refl elements
        · exact List.filter_sublist elements

/-- C4 counterexample: for the selector `div:first p` (an alternative with
a traversal combinator) and the node list `[exP2, exP1]` given against
document order, `filter` resolves through a document-root search and
returns `[exP1, exP2]`, which is not a subsequence of the input list. -/
theorem c4_counterexample :
    filterSel 20 exDoc4 exSel4 [exP2, exP1] {} = some [exP1, exP2] ∧
    ¬ List.Sublist [exP1, exP2] [exP2, exP1] := by
  constructor
  · decide
  · decide

/-- C4 (amended): when no alternative of the selector group contains a
traversal combinator, `filter` returns a subsequence of the input nodes:
drawn from them, in their original relative order, and duplicate-free
whenever the input is. -/
theorem c4_filter_subsequence (fuel : Nat) (doc : DomNode) (selector : SelGroup)
    (elements : List DomNode) (opts : Options) (res : List DomNode)
    (hfree : ∀ s ∈ selector, s.any isTraversal = false)
    (h : filterSel fuel doc selector elements opts = some res) :
    res.Sublist elements ∧ (elements.Nodup → res.Nodup) :=
  ⟨travFree_fp doc fuel selector elements opts res hfree h,
   fun hnd => (travFree_fp doc fuel selector elements opts res hfree h).nodup hnd⟩

/-- C4 witness: the traversal-free selector `div:first` filters
`[exD1, exD2]` to the subsequence `[exD1]`. -/
theorem c4_filter_subsequence_witness :
    List.Sublist [exD1] [exD1, exD2] ∧ ([exD1, exD2].Nodup → [exD1].Nodup) :=
  c4_filter_subsequence 20 exDoc1 [[.tag "div", .pseudoFilter .first .null]]
    [exD1, exD2] {} [exD1] (by decide) (by decide)
theorem filterParsed_nil (fuel : Nat) (doc : DomNode) (ss : SelGroup) (opts : Options) :
    filterParsed (fuel + 1) doc ss [] opts = some [] := by
  simp [filterParsed]

theorem filterByPosition_empty (m : Nat) (doc : DomNode) (fname : PFilter)
    (fdata : SelData) (opts : Options)
    (hfil : isFilter (Selector.pseudoFilter fname fdata) = true) :
    filterByPosition (m + 2) doc fname [] fdata opts = some [] := by
  cases hfp : filterByPosition (m + 2) doc fname [] fdata opts with
  | some res =>
      have hsub : res.Sublist [] := filterByPosition_sublist hfp
      rw [List.sublist_nil.mp hsub]
  | none =>
      exfalso
      cases fname
      case not =>
        cases fdata with
        | num n => simp [isFilter] at hfil
        | null => simp [isFilter] at hfil
        | sels ss =>
            rw [show filterByPosition (m + 2) doc .not [] (.sels ss) opts =
                  (filterParsed (m + 1) doc ss [] opts).map
                    (fun found => List.filter (fun e => !found.contains e) []) from rfl,
              filterParsed_nil m doc ss opts] at hfp
            simp at hfp
      all_goals simp [filterByPosition] at hfp

theorem findFilterElements_empty_aux (f : Nat) (doc : DomNode) (selector : SelSeq)
    (opts : Options) (q : Bool) (lim : Option Nat)
    (hf : seqHasFilter selector = true) :
    ∀ r, findFilterElements (f + 3) doc (.many []) selector opts q lim = r →
      r = some [] := by
  intro r h
  simp only [findFilterElements] at h
  cases hidx : selector.findIdx? isFilter with
  | none =>
      exfalso
      rw [List.findIdx?_eq_none_iff] at hidx
      rw [seqHasFilter_eq_any] at hf
      obtain ⟨x, hx, hpx⟩ := List.any_eq_true.mp hf
      rw [hidx x hx] at hpx
      exact Bool.false_ne_true hpx
  | some fi =>
      rw [hidx] at h
      dsimp only at h
      obtain ⟨a, ha, hpa, _⟩ := findIdx?_spec hidx
      rw [Nat.sub_zero] at ha
      cases a
      case pseudoFilter fname fdata =>
        rw [ha] at h
        simp only [List.filter_nil, findElements_many_nil, filterElements_many_nil,
          ite_self, takeLim_nil, filterByPosition_empty f doc fname fdata opts hpa,
          List.isEmpty_nil, Bool.true_or, if_true] at h
        exact h.symm
      all_goals simp [isFilter] at hpa

theorem findFilterElements_empty (f : Nat) (doc : DomNode) (selector : SelSeq)
    (opts : Options) (q : Bool) (lim : Option Nat)
    (hf : seqHasFilter selector = true) :
    findFilterElements (f + 3) doc (.many []) selector opts q lim = some [] :=
  findFilterElements_empty_aux f doc selector opts q lim hf _ rfl

theorem mapResults_all_nil {g : SelSeq → Option (List DomNode)} :
    ∀ {l : List SelSeq}, (∀ s ∈ l, g s = some []) →
      ∃ rs, mapResults g l = some rs ∧ ∀ x ∈ rs, x = [] := by
  intro l
  induction l with
  | nil => exact fun _ => ⟨[], rfl, by simp⟩
  | cons s t ih =>
    intro h
    obtain ⟨rs, hrs, hall⟩ := ih (fun x hx => h x (List.mem_cons_of_mem s hx))
    refine ⟨[] :: rs, ?_, ?_⟩
    · simp [mapResults, h s (List.mem_cons_self s t), hrs]
    · intro x hx
      rcases List.mem_cons.mp hx with h1 | h2
      · exact h1
      · exact hall x h2

theorem someLoop_empty (doc : DomNode) (opts : Options) :
    ∀ (sels : List SelSeq) (f : Nat),
      (∀ s ∈ sels, seqHasFilter s = true) →
      (∀ s ∈ sels, s.any isTraversal = false) →
      someLoop (f + 4) doc [] opts sels = some false := by
  intro sels
  induction sels with
  | nil => intro f _ _; rfl
  | cons s t ih =>
    intro f hff hfree
    simp only [someLoop]
    have hfbs : filterBySelector (f + 4) doc s [] opts = some [] := by
      simp only [filterBySelector, hfree s (List.mem_cons_self s t), Bool.false_eq_true,
        if_false]
      exact findFilterElements_empty f doc s opts false (some (List.length ([] : List DomNode)))
        (hff s (List.mem_cons_self s t))
    rw [hfbs]
    simp only [List.isEmpty_nil, if_true]
    exact ih f (fun x hx => hff x (List.mem_cons_of_mem s hx))
      (fun x hx => hfree x (List.mem_cons_of_mem s hx))

/-- C9 counterexample: `some` with an empty element list, no `root`
option, and a filtered alternative containing a traversal
(`div:first p`) crashes -- `getDocumentRoot` walks the parent pointers of
a missing first element -- instead of returning `false`. -/
theorem c9_counterexample :
    someSel 20 exDoc4 [] exSel4 {} = Option.none ∧
    someSel 20 exDoc4 [] exSel4 {} ≠ some false := by
  constructor
  · decide
  · decide

/-- C9 (amended): for every selector group, `filter` and `select` with an
empty candidate or root list return an empty result without error; `some`
returns `false` without error provided no filtered alternative contains a
traversal combinator; with such an alternative and no `root` option,
`some` raises (see the counterexample). -/
theorem c9_empty_inputs (fuel : Nat) (doc : DomNode) (selector : SelGroup)
    (opts : Options) (lim : Option Nat) (hfuel : 4 ≤ fuel) :
    filterSel fuel doc selector [] opts = some [] ∧
    select fuel doc selector (.many []) opts lim = some [] ∧
    ((∀ s ∈ (groupSelectors selector).2, s.any isTraversal = false) →
      someSel fuel doc [] selector opts = some false) := by
  match fuel, hfuel with
  | f + 4, _ =>
    refine ⟨filterParsed_nil (f + 3) doc selector opts, ?sel, ?som⟩
    case som =>
      intro hfree
      simp only [someSel, List.any_nil, Bool.and_false, Bool.false_eq_true, if_false]
      exact someLoop_empty doc opts (groupSelectors selector).2 f
        (fun s hs => mem_filtered_hasFilter hs) hfree
    case sel =>
      simp only [select]
      have hall : ∀ s ∈ (groupSelectors selector).2,
          findFilterElements (f + 4) doc (.many []) s opts true lim = some [] := by
        intro s hs
        exact findFilterElements_empty (f + 1) doc s opts true lim
          (mem_filtered_hasFilter hs)
      obtain ⟨rs, hrs, hallnil⟩ := mapResults_all_nil hall
      rw [hrs]
      dsimp only
      by_cases hp : (groupSelectors selector).1.isEmpty = true
      · rw [if_pos hp]
        match rs, hallnil with
        | [], _ => rfl
        | [r], hall => rw [hall r (by simp)]
        | a :: b :: rest, hall =>
          have hfl : (a :: b :: rest).flatten = [] := List.flatten_eq_nil_iff.mpr hall
          show some (uniqueSort doc ((a :: b :: rest).flatten)) = some []
          rw [hfl]
          rfl
      · rw [if_neg hp]
        have hall2 : ∀ x ∈ rs ++ [findElements doc (.many [])
            (groupSelectors selector).1 opts lim], x = [] := by
          intro x hx
          rcases List.mem_append.mp hx with h1 | h2
          · exact hallnil x h1
          · rw [List.mem_singleton.mp h2]
            exact findElements_many_nil doc _ opts lim
        match rs ++ [findElements doc (.many []) (groupSelectors selector).1 opts lim],
            hall2 with
        | [], _ => rfl
        | [r], hall => rw [hall r (by simp)]
        | a :: b :: rest, hall =>
          have hfl : (a :: b :: rest).flatten = [] := List.flatten_eq_nil_iff.mpr hall
          show some (uniqueSort doc ((a :: b :: rest).flatten)) = some []
          rw [hfl]
          rfl

/-- C9 witness: with the traversal-free group `div, span:last` and empty
inputs, `filter` and `select` return empty and `some` returns `false`. -/
theorem c9_empty_inputs_witness :
    filterSel 20 exDoc3 exSel3 [] {} = some [] ∧
    select 20 exDoc3 exSel3 (.many []) {} Option.none = some [] ∧
    someSel 20 exDoc3 [] exSel3 {} = some false := by
  obtain ⟨h1, h2, h3⟩ := c9_empty_inputs 20 exDoc3 exSel3 {} Option.none (by decide)
  exact ⟨h1, h2, h3 (by decide)⟩

end CS
